import Mathlib

/-!
Shallow embedding of the `cachex` in-memory TTL cache (Go) and proofs about
its specification.

Modelling conventions:
* `time.Duration` and `time.Time.UnixNano()` values are modelled as `Int`
  (Go `int64`; the magnitudes involved never approach overflow, so no
  wrap-around modelling is needed).
* Every operation that reads the wall clock in Go (`time.Now()`) takes the
  current instant `now : Int` as an explicit argument.
* The Go `map[K]Item[V]` is modelled as an association list
  `List (K × Item V)`; Go map assignment replaces the entry for an existing
  key in place, deletion removes it, iteration order is irrelevant to every
  property proved here.
* A Go channel used only as a close-once cancellation signal (`janitor.stop`)
  is modelled as a `Bool` flag `stopClosed`; `close(ch)` sets it, and the
  non-blocking `select`-with-`default` read in `stopJanitor` is the test of
  the flag.  `stopJanitor` additionally returns whether this particular call
  performed the `close` (a second `close` of the same channel would panic in
  Go, so that Bool records the "double release" effect).
* A Go runtime panic (negative `make` length, `% 0`) is modelled as `none`
  of an `Option` result.
* The dynamic type test `any(v).(Closable)` is modelled by an injected
  predicate `closable : V → Bool`, and the effect ordering of `Close`
  callbacks relative to map removal and lock acquisition is captured by an
  explicit event trace.
-/

set_option autoImplicit false
set_option linter.unusedSectionVars false
set_option linter.unusedVariables false

namespace Cachex

variable {K V : Type} [DecidableEq K]

/-- `Item` from `types.go`: a cached value with an expiration instant;
`expiration = 0` means never expires. -/
structure Item (V : Type) where
  value : V
  expiration : Int
deriving DecidableEq, Repr

/-- The expiry test `it.Expiration > 0 && now > it.Expiration` shared by
`Cache.Get`, `Cache.cleanup`, `shard.get` and `shard.cleanup`. -/
def Item.expiredAt (it : Item V) (now : Int) : Bool :=
  decide (it.expiration > 0 ∧ now > it.expiration)

/-- `janitor` from `types.go`: the sweep interval and the `stop` channel,
the latter modelled by its closed-flag. -/
structure Janitor where
  interval : Int
  stopClosed : Bool
deriving DecidableEq, Repr

/-- `newJanitor` from `janitor.go`: fresh janitor with an open stop channel. -/
def newJanitor (interval : Int) : Janitor :=
  { interval := interval, stopClosed := false }

/-- `stopJanitor` from `janitor.go`: a non-blocking receive on the stop
channel; if it is already closed, do nothing, otherwise close it.  The
returned `Bool` is `true` exactly when this call performed the `close`. -/
def stopJanitor (j : Janitor) : Janitor × Bool :=
  if j.stopClosed then (j, false)
  else ({ j with stopClosed := true }, true)

/-- Lookup in the association list modelling a Go map read `m[key]`. -/
def lookupKey : List (K × Item V) → K → Option (Item V)
  | [], _ => none
  | (k, it) :: rest, key => if k = key then some it else lookupKey rest key

/-- Go map assignment `m[key] = it`: replace the entry for an existing key,
otherwise add a new one. -/
def insertKey : List (K × Item V) → K → Item V → List (K × Item V)
  | [], key, it => [(key, it)]
  | (k, old) :: rest, key, it =>
      if k = key then (key, it) :: rest else (k, old) :: insertKey rest key it

/-- Go map deletion `delete(m, key)`. -/
def eraseKey : List (K × Item V) → K → List (K × Item V)
  | [], _ => []
  | (k, it) :: rest, key =>
      if k = key then eraseKey rest key else (k, it) :: eraseKey rest key

/-- `Cache` from `cachex.go`: the item table, the default TTL, the optional
janitor, and the live counter `count`.  The `sync.RWMutex` needs no state of
its own; lock acquisition order is captured by event traces below. -/
structure Cache (K V : Type) where
  items : List (K × Item V)
  ttl : Int
  janitor : Option Janitor
  count : Int
deriving DecidableEq, Repr

/-- `New` from `cachex.go`: empty table; the janitor is started only if both
the TTL and the cleanup interval are positive. -/
def Cache.New (ttl cleanupInterval : Int) : Cache K V :=
  { items := []
    ttl := ttl
    janitor :=
      if 0 < ttl ∧ 0 < cleanupInterval then some (newJanitor cleanupInterval)
      else none
    count := 0 }

/-- `Cache.Set` from `cachex.go`: store `{value, exp}` where `exp` is
`now + ttl` when `ttl > 0` and `0` (never expires) otherwise; increment
`count` only when the key was absent. -/
def Cache.Set (c : Cache K V) (now : Int) (key : K) (value : V) : Cache K V :=
  let exp : Int := if 0 < c.ttl then now + c.ttl else 0
  { c with
    items := insertKey c.items key { value := value, expiration := exp }
    count := if (lookupKey c.items key).isSome then c.count else c.count + 1 }

/-- `Cache.Delete` from `cachex.go` (state effect only; the `Closable`
callback, which does not touch the cache state, is traced by
`Cache.DeleteTrace` below): remove the key if present and decrement `count`. -/
def Cache.Delete (c : Cache K V) (key : K) : Cache K V :=
  match lookupKey c.items key with
  | some _ => { c with items := eraseKey c.items key, count := c.count - 1 }
  | none => c

/-- `Cache.Get` from `cachex.go`: look up the item; if absent return
`(zero, false)`; if present and expired, call `Delete`; then return
`(item.Value, true)` (the source returns `item.Value, true` on the expired
path as well).  The zero value of `V` is modelled by `none`. -/
def Cache.Get (c : Cache K V) (now : Int) (key : K) :
    Option V × Bool × Cache K V :=
  match lookupKey c.items key with
  | none => (none, false, c)
  | some item =>
      (some item.value, true, if item.expiredAt now then c.Delete key else c)

/-- `Cache.Len` from `cachex.go`: returns the live counter. -/
def Cache.Len (c : Cache K V) : Int :=
  c.count

/-- The body of the `cleanup` loops of `cachex.go` (and of
`shard.cleanup`): walk the table, delete every entry expired at the single
instant `now`, and count the deletions (the count is what `Cache.cleanup`
subtracts; `shard.cleanup` ignores it). -/
def cleanupItems (now : Int) : List (K × Item V) → List (K × Item V) × Nat
  | [] => ([], 0)
  | (k, it) :: rest =>
      let r := cleanupItems now rest
      if it.expiredAt now then (r.1, r.2 + 1) else ((k, it) :: r.1, r.2)

/-- `Cache.cleanup` from `cachex.go` (state effect only; the `Closable`
callbacks are traced by `Cache.CleanupTrace`): take `now` once, then remove
every entry expired at that instant, decrementing `count` per removal. -/
def Cache.cleanup (c : Cache K V) (now : Int) : Cache K V :=
  let r := cleanupItems now c.items
  { c with items := r.1, count := c.count - (r.2 : Int) }

/-- `Cache.Close` from `cachex.go`: stop the janitor if one exists; nothing
else is touched. -/
def Cache.Close (c : Cache K V) : Cache K V :=
  { c with janitor := c.janitor.map (fun j => (stopJanitor j).1) }

/-- `Cache.Clear` from `cachex.go`: fresh empty table, counter reset. -/
def Cache.Clear (c : Cache K V) : Cache K V :=
  { c with items := [], count := 0 }

/-- Observable events of a single `Cache.Delete` / `Cache.cleanup` call:
mutex transitions, `Closable.Close` invocations, and map removals. -/
inductive CacheEvent (K : Type) where
  | lockAcquire
  | closeCall (key : K)
  | removeKey (key : K)
  | lockRelease
deriving DecidableEq, Repr

/-- `Cache.Delete` from `cachex.go` with its event trace: `c.mu.Lock()`;
if the key is present, call `Close` on the value when it is `Closable`,
then `delete(c.items, key)`, then unlock. -/
def Cache.DeleteTrace (c : Cache K V) (closable : V → Bool) (key : K) :
    Cache K V × List (CacheEvent K) :=
  match lookupKey c.items key with
  | some it =>
      ({ c with items := eraseKey c.items key, count := c.count - 1 },
        [CacheEvent.lockAcquire]
          ++ (if closable it.value then [CacheEvent.closeCall key] else [])
          ++ [CacheEvent.removeKey key, CacheEvent.lockRelease])
  | none => (c, [CacheEvent.lockAcquire, CacheEvent.lockRelease])

/-- Events of the `cleanup` loop of `cachex.go`: for each expired entry, a
`Close` call when the value is `Closable`, followed by its removal. -/
def cleanupEvents (closable : V → Bool) (now : Int) :
    List (K × Item V) → List (CacheEvent K)
  | [] => []
  | (k, it) :: rest =>
      (if it.expiredAt now then
        (if closable it.value then [CacheEvent.closeCall k] else [])
          ++ [CacheEvent.removeKey k]
      else []) ++ cleanupEvents closable now rest

/-- `Cache.cleanup` from `cachex.go` with its event trace: the whole loop
runs between `c.mu.Lock()` and `c.mu.Unlock()`. -/
def Cache.CleanupTrace (c : Cache K V) (closable : V → Bool) (now : Int) :
    Cache K V × List (CacheEvent K) :=
  (c.cleanup now,
    [CacheEvent.lockAcquire] ++ cleanupEvents closable now c.items
      ++ [CacheEvent.lockRelease])

/-- `shard` from the sharded implementation: item table plus fixed TTL. -/
structure Shard (K V : Type) where
  items : List (K × Item V)
  ttl : Int
deriving DecidableEq, Repr

/-- `newShard`: empty table with the given TTL. -/
def newShard (ttl : Int) : Shard K V :=
  { items := [], ttl := ttl }

/-- `shard.set`: unconditionally stores
`{value, exp = time.Now().Add(s.ttl).UnixNano()}` — note: no `ttl > 0`
guard, unlike `Cache.Set`. -/
def Shard.set (s : Shard K V) (now : Int) (key : K) (value : V) : Shard K V :=
  { s with items := insertKey s.items key { value := value, expiration := now + s.ttl } }

/-- `shard.delete`: unconditional map deletion. -/
def Shard.delete (s : Shard K V) (key : K) : Shard K V :=
  { s with items := eraseKey s.items key }

/-- `shard.get`: same shape as `Cache.Get` (including returning
`item.Value, true` on the expired path after the lazy delete). -/
def Shard.get (s : Shard K V) (now : Int) (key : K) :
    Option V × Bool × Shard K V :=
  match lookupKey s.items key with
  | none => (none, false, s)
  | some item =>
      (some item.value, true, if item.expiredAt now then s.delete key else s)

/-- `shard.cleanup`: take `now` once, remove every entry expired at that
instant (same loop as `Cache.cleanup`, without counter or `Closable`). -/
def Shard.cleanup (s : Shard K V) (now : Int) : Shard K V :=
  { s with items := (cleanupItems now s.items).1 }

/-- The FNV-1a 32-bit hash of `hash/fnv` over a byte sequence, as used by
`hashKey` (`h.Write(bytes); h.Sum32()`). -/
def fnv32a (bytes : List Nat) : Nat :=
  bytes.foldl (fun h b => ((h ^^^ b % 256) * 16777619) % 4294967296) 2166136261

/-- `hashKey` from `sharded_cachex.go`:
`int(fnv1a(fmt.Sprintf("%v", key))) % numShards`.  The `%v` rendering of the
key to bytes is the injected pure encoding `fmtV`.  Go's `%` panics when
`numShards = 0` (modelled as `none`); `Int.tmod` is Go's truncated `%`. -/
def hashKey (fmtV : K → List Nat) (key : K) (numShards : Int) : Option Int :=
  if numShards = 0 then none
  else some (Int.tmod (fnv32a (fmtV key) : Int) numShards)

/-- `ShardedCache` from `sharded_cachex.go`: the shard array and one shared
janitor. -/
structure ShardedCache (K V : Type) where
  shards : List (Shard K V)
  janitor : Option Janitor
deriving DecidableEq, Repr

/-- `NewSharded` from `sharded_cachex.go`: `make([]*shard, numShards)`
panics for a negative length (`none`); otherwise `numShards` fresh shards
are allocated (zero is accepted) and the janitor is started only when both
TTL and cleanup interval are positive.  No validation of `numShards`. -/
def NewSharded (numShards ttl cleanupInterval : Int) :
    Option (ShardedCache K V) :=
  if numShards < 0 then none
  else
    some
      { shards := List.replicate numShards.toNat (newShard ttl)
        janitor :=
          if 0 < ttl ∧ 0 < cleanupInterval then
            some (newJanitor cleanupInterval)
          else none }

/-- `ShardedCache.Set`: route by `hashKey` and delegate; a panic in
`hashKey` (or an out-of-range shard index) is `none`. -/
def ShardedCache.Set (sc : ShardedCache K V) (fmtV : K → List Nat)
    (now : Int) (key : K) (value : V) : Option (ShardedCache K V) :=
  match hashKey fmtV key (sc.shards.length : Int) with
  | none => none
  | some idx =>
      match sc.shards[idx.toNat]? with
      | none => none
      | some s =>
          some { sc with shards := sc.shards.set idx.toNat (s.set now key value) }

/-- `ShardedCache.Get`: route by `hashKey` and delegate; a panic in
`hashKey` (or an out-of-range shard index) is `none`. -/
def ShardedCache.Get (sc : ShardedCache K V) (fmtV : K → List Nat)
    (now : Int) (key : K) : Option (Option V × Bool × ShardedCache K V) :=
  match hashKey fmtV key (sc.shards.length : Int) with
  | none => none
  | some idx =>
      match sc.shards[idx.toNat]? with
      | none => none
      | some s =>
          let r := s.get now key
          some (r.1, r.2.1, { sc with shards := sc.shards.set idx.toNat r.2.2 })

/-- `ShardedCache.Delete`: route by `hashKey` and delegate to
`shard.delete`; a panic in `hashKey` (or an out-of-range shard index) is
`none`. -/
def ShardedCache.Delete (sc : ShardedCache K V) (fmtV : K → List Nat)
    (key : K) : Option (ShardedCache K V) :=
  match hashKey fmtV key (sc.shards.length : Int) with
  | none => none
  | some idx =>
      match sc.shards[idx.toNat]? with
      | none => none
      | some s =>
          some { sc with shards := sc.shards.set idx.toNat (s.delete key) }

/-- `ShardedCache.Close` from `sharded_cachex.go`: stop the shared janitor
if it exists; the shards are untouched. -/
def ShardedCache.Close (sc : ShardedCache K V) : ShardedCache K V :=
  { sc with janitor := sc.janitor.map (fun j => (stopJanitor j).1) }

/-! ### Association-list lemmas (Go map semantics) -/

theorem lookup_insertKey_self (l : List (K × Item V)) (k : K) (it : Item V) :
    lookupKey (insertKey l k it) k = some it := by
  induction l with
  | nil => simp [insertKey, lookupKey]
  | cons hd tl ih =>
    obtain ⟨k0, it0⟩ := hd
    by_cases h : k0 = k <;> simp [insertKey, lookupKey, h, ih]

theorem lookup_eraseKey_self (l : List (K × Item V)) (k : K) :
    lookupKey (eraseKey l k) k = none := by
  induction l with
  | nil => rfl
  | cons hd tl ih =>
    obtain ⟨k0, it0⟩ := hd
    by_cases h : k0 = k <;> simp [eraseKey, lookupKey, h, ih]

theorem lookup_eq_none_iff (l : List (K × Item V)) (k : K) :
    lookupKey l k = none ↔ k ∉ l.map Prod.fst := by
  induction l with
  | nil => simp [lookupKey]
  | cons hd tl ih =>
    obtain ⟨k0, it0⟩ := hd
    by_cases h : k0 = k
    · subst h; simp [lookupKey]
    · simp only [lookupKey, if_neg h, List.map_cons, List.mem_cons, not_or, ih]
      exact ⟨fun hk => ⟨Ne.symm h, hk⟩, fun hk => hk.2⟩

theorem map_fst_insertKey_of_isSome (l : List (K × Item V)) (k : K) (it : Item V)
    (h : (lookupKey l k).isSome) :
    (insertKey l k it).map Prod.fst = l.map Prod.fst := by
  induction l with
  | nil => simp [lookupKey] at h
  | cons hd tl ih =>
    obtain ⟨k0, it0⟩ := hd
    by_cases hk : k0 = k
    · simp [insertKey, hk]
    · simp only [lookupKey, if_neg hk] at h
      simp [insertKey, hk, ih h]

theorem map_fst_insertKey_of_none (l : List (K × Item V)) (k : K) (it : Item V)
    (h : lookupKey l k = none) :
    (insertKey l k it).map Prod.fst = l.map Prod.fst ++ [k] := by
  induction l with
  | nil => simp [insertKey]
  | cons hd tl ih =>
    obtain ⟨k0, it0⟩ := hd
    by_cases hk : k0 = k
    · simp [lookupKey, hk] at h
    · simp only [lookupKey, if_neg hk] at h
      simp [insertKey, hk, ih h]

theorem eraseKey_sublist (l : List (K × Item V)) (k : K) :
    (eraseKey l k).Sublist l := by
  induction l with
  | nil => simp [eraseKey]
  | cons hd tl ih =>
    obtain ⟨k0, it0⟩ := hd
    by_cases h : k0 = k
    · simp only [eraseKey, if_pos h]
      exact ih.cons (k0, it0)
    · simp only [eraseKey, if_neg h]
      exact ih.cons₂ (k0, it0)

theorem eraseKey_eq_of_not_mem (l : List (K × Item V)) (k : K)
    (h : k ∉ l.map Prod.fst) : eraseKey l k = l := by
  induction l with
  | nil => rfl
  | cons hd tl ih =>
    obtain ⟨k0, it0⟩ := hd
    simp only [List.map_cons, List.mem_cons] at h
    push_neg at h
    simp [eraseKey, Ne.symm h.1, ih h.2]

theorem length_eraseKey_of_nodup (l : List (K × Item V)) (k : K)
    (hn : (l.map Prod.fst).Nodup) (h : (lookupKey l k).isSome) :
    (eraseKey l k).length + 1 = l.length := by
  induction l with
  | nil => simp [lookupKey] at h
  | cons hd tl ih =>
    obtain ⟨k0, it0⟩ := hd
    simp only [List.map_cons, List.nodup_cons] at hn
    by_cases hk : k0 = k
    · subst hk
      simp [eraseKey, eraseKey_eq_of_not_mem tl k0 hn.1]
    · simp only [lookupKey, if_neg hk] at h
      simp [eraseKey, hk, ← ih hn.2 h]

theorem cleanupItems_fst (now : Int) (l : List (K × Item V)) :
    (cleanupItems now l).1 = l.filter (fun kv => !(kv.2.expiredAt now)) := by
  induction l with
  | nil => rfl
  | cons hd tl ih =>
    obtain ⟨k0, it0⟩ := hd
    cases h : it0.expiredAt now <;>
      simp [cleanupItems, h, ih, List.filter_cons]

theorem cleanupItems_length (now : Int) (l : List (K × Item V)) :
    ((cleanupItems now l).1).length + (cleanupItems now l).2 = l.length := by
  induction l with
  | nil => rfl
  | cons hd tl ih =>
    obtain ⟨k0, it0⟩ := hd
    cases h : it0.expiredAt now <;> simp [cleanupItems, h] <;> omega

/-- Helper for C6: deleting an absent key is a no-op on the cache state. -/
theorem Cache.delete_absent (c : Cache K V) (k : K)
    (h : lookupKey c.items k = none) : c.Delete k = c := by
  simp [Cache.Delete, h]

/-! ### Claims -/

/-- A single-partition cache holding one entry whose expiration (5) is set
and lies in the past at the time of the `Get` call (now = 10). -/
def c1Cache : Cache Nat Nat :=
  { items := [(0, { value := 7, expiration := 5 })]
    ttl := 5
    janitor := none
    count := 1 }

/-- Claim C1 (code bug): for an entry whose expiration is set and in the
past, `Cache.Get` does lazily delete the entry, but it returns the stale
value with `found = true`, not the claimed not-found — contradicting the
source's own doc comment ("If expired or missing, returns zero value"). -/
theorem c1_get_expired_eval :
    (c1Cache.Get 10 0).2.1 = true
    ∧ (c1Cache.Get 10 0).1 = some 7
    ∧ ((c1Cache.Get 10 0).2.2).items = [] := by
  decide

/-- A shard constructed with `ttl = 0`, after `set(0, 7)` at instant 5. -/
def c2Shard : Shard Nat Nat := (newShard 0).set 5 0 7

/-- Claim C2 (code bug): `shard.set` with `ttl = 0` stores
`expiration = now + 0 = now` (here 5), not the never-expires sentinel `0`;
consequently a later `get` lazily deletes the entry (while still returning
it once, per the C1 bug) and the next `get` reports not-found — so a ttl-0
sharded cache does not retain entries indefinitely. -/
theorem c2_shard_zero_ttl_eval :
    lookupKey c2Shard.items 0 = some { value := 7, expiration := 5 }
    ∧ ((c2Shard.get 6 0).2.2.get 7 0).2.1 = false := by
  decide

/-- Claim C5 (confirmed): `Set` then `Get` on the same partition returns
`(v, true)` when the ttl is 0 or has not elapsed between the two calls. -/
theorem c5_set_get_round_trip (c : Cache K V) (now now' : Int) (k : K) (v : V)
    (h : c.ttl = 0 ∨ now' ≤ now + c.ttl) :
    ((c.Set now k v).Get now' k).1 = some v
    ∧ ((c.Set now k v).Get now' k).2.1 = true := by
  simp [Cache.Get, Cache.Set, lookup_insertKey_self]

/-- Witness for C5 at ttl = 0, set at instant 0, get at instant 100. -/
theorem c5_witness :
    (((Cache.New 0 0 : Cache Nat Nat).Set 0 0 42).Get 100 0).1 = some 42
    ∧ (((Cache.New 0 0 : Cache Nat Nat).Set 0 0 42).Get 100 0).2.1 = true :=
  c5_set_get_round_trip (Cache.New 0 0) 0 100 0 42 (Or.inl rfl)

/-- Claim C6 (confirmed): `Delete` on an absent key leaves the cache
unchanged (and has no error outcome to begin with), and deleting twice in a
row yields the same state as deleting once. -/
theorem c6_delete_idempotent (c : Cache K V) (k : K) :
    (lookupKey c.items k = none → c.Delete k = c)
    ∧ (c.Delete k).Delete k = c.Delete k := by
  refine ⟨fun h => Cache.delete_absent c k h, ?_⟩
  cases h : lookupKey c.items k with
  | none => simp [Cache.delete_absent c k h]
  | some it =>
    apply Cache.delete_absent
    simp [Cache.Delete, h, lookup_eraseKey_self]

/-- Witness for C6 on the empty cache and key 0. -/
theorem c6_witness :
    ((Cache.New 0 0 : Cache Nat Nat).Delete 0 = Cache.New 0 0)
    ∧ ((Cache.New 0 0 : Cache Nat Nat).Delete 0).Delete 0
        = (Cache.New 0 0 : Cache Nat Nat).Delete 0 :=
  ⟨(c6_delete_idempotent (Cache.New 0 0) 0).1 rfl,
   (c6_delete_idempotent (Cache.New 0 0) 0).2⟩

/-- The sharded table the source builds for `shardCount = 0`: an empty shard
array and no janitor (ttl = 0, interval = 0). -/
def c3Table : Option (ShardedCache Nat Nat) := NewSharded 0 0 0

/-- Claim C3 (corrected), counterexample: `NewSharded` with `shardCount = 0`
does not fail at construction (it returns a table), and the very first `Get`
on that table is a runtime panic (`none`, the modulo-by-zero in `hashKey`) —
the opposite of both halves of the claim. -/
theorem c3_counterexample :
    c3Table.isSome = true
    ∧ c3Table.map (fun sc => sc.Get (fun _ => []) 0 0) = some none := by
  decide

/-- Claim C3 (corrected, amended): `NewSharded` performs no shard-count
validation.  A negative count panics at construction (the negative
`make` length); a zero count constructs successfully and every subsequent
keyed operation panics at runtime with a modulo-by-zero in `hashKey`. -/
theorem c3_amended_thm (n ttl ci now : Int) (fmtV : K → List Nat) (key : K)
    (v : V) (sc : ShardedCache K V) (hn : n < 0)
    (hsc : NewSharded 0 ttl ci = some sc) :
    (NewSharded n ttl ci : Option (ShardedCache K V)) = none
    ∧ sc.Get fmtV now key = none
    ∧ sc.Set fmtV now key v = none
    ∧ sc.Delete fmtV key = none := by
  refine ⟨by simp [NewSharded, hn], ?_, ?_, ?_⟩ <;>
  · simp only [NewSharded, if_neg (by omega : ¬ (0 : Int) < 0),
      Option.some.injEq] at hsc
    subst hsc
    simp [ShardedCache.Get, ShardedCache.Set, ShardedCache.Delete, hashKey]

/-- The zero-shard table used to witness C3's amended claim. -/
def c3ZeroTable : ShardedCache Nat Nat :=
  { shards := [], janitor := some (newJanitor 1) }

/-- Witness for C3's amended claim at `n = -1` and the zero-shard table. -/
theorem c3_amended_witness :
    (NewSharded (-1) 1 1 : Option (ShardedCache Nat Nat)) = none
    ∧ c3ZeroTable.Get (fun _ => []) 0 0 = none
    ∧ c3ZeroTable.Set (fun _ => []) 0 0 5 = none
    ∧ c3ZeroTable.Delete (fun _ => []) 0 = none :=
  c3_amended_thm (-1) 1 1 0 (fun _ => []) 0 5 c3ZeroTable (by decide) (by decide)

/-- The requirement "Close is invoked only after the entry has been removed
from the table": scanning the trace left to right, every `closeCall k` must
be preceded by a `removeKey k`. -/
def closeAfterRemoval : List K → List (CacheEvent K) → Bool
  | _, [] => true
  | removed, CacheEvent.removeKey k :: rest => closeAfterRemoval (k :: removed) rest
  | removed, CacheEvent.closeCall k :: rest =>
      decide (k ∈ removed) && closeAfterRemoval removed rest
  | removed, _ :: rest => closeAfterRemoval removed rest

/-- The requirement "Close is never invoked while holding the table lock":
every `closeCall` must occur while the lock-held flag is off. -/
def closeOutsideLock : Bool → List (CacheEvent K) → Bool
  | _, [] => true
  | _, CacheEvent.lockAcquire :: rest => closeOutsideLock true rest
  | _, CacheEvent.lockRelease :: rest => closeOutsideLock false rest
  | held, CacheEvent.closeCall _ :: rest => !held && closeOutsideLock held rest
  | held, CacheEvent.removeKey _ :: rest => closeOutsideLock held rest

/-- Claim C4 as stated, as a predicate on an event trace: `Close` fires only
after the removal, and only outside the lock. -/
def c4ClaimHolds (t : List (CacheEvent K)) : Bool :=
  closeAfterRemoval [] t && closeOutsideLock false t

/-- A cache holding one entry whose value implements `Closable`. -/
def c4Cache : Cache Nat Nat :=
  { items := [(0, { value := 7, expiration := 0 })]
    ttl := 0
    janitor := none
    count := 1 }

/-- Claim C4 (corrected), counterexample: deleting a `Closable` value
produces the trace `[lockAcquire, closeCall, removeKey, lockRelease]` —
`Close` runs before the removal and while the exclusive lock is held, so
the claim fails on this concrete input. -/
theorem c4_counterexample :
    c4ClaimHolds ((c4Cache.DeleteTrace (fun _ => true) 0).2) = false := by
  decide

/-- Inverted ordering for the amended claim: every `closeCall k` is
followed, later in the trace, by `removeKey k`. -/
def closeBeforeRemoval : List (CacheEvent K) → Bool
  | [] => true
  | CacheEvent.closeCall k :: rest =>
      decide (CacheEvent.removeKey k ∈ rest) && closeBeforeRemoval rest
  | _ :: rest => closeBeforeRemoval rest

/-- Inverted lock condition for the amended claim: every `closeCall` occurs
while the lock-held flag is on. -/
def closeUnderLock : Bool → List (CacheEvent K) → Bool
  | _, [] => true
  | _, CacheEvent.lockAcquire :: rest => closeUnderLock true rest
  | _, CacheEvent.lockRelease :: rest => closeUnderLock false rest
  | held, CacheEvent.closeCall _ :: rest => held && closeUnderLock held rest
  | held, CacheEvent.removeKey _ :: rest => closeUnderLock held rest

theorem closeBeforeRemoval_cleanupEvents (closable : V → Bool) (now : Int)
    (l : List (K × Item V)) (tail : List (CacheEvent K))
    (ht : closeBeforeRemoval tail = true) :
    closeBeforeRemoval (cleanupEvents closable now l ++ tail) = true := by
  induction l with
  | nil => simpa [cleanupEvents] using ht
  | cons hd tl ih =>
    obtain ⟨k0, it0⟩ := hd
    cases hexp : it0.expiredAt now
    · simpa [cleanupEvents, hexp] using ih
    · cases hcl : closable it0.value <;>
        simpa [cleanupEvents, hexp, hcl, closeBeforeRemoval] using ih

theorem closeUnderLock_cleanupEvents (closable : V → Bool) (now : Int)
    (l : List (K × Item V)) (tail : List (CacheEvent K))
    (ht : closeUnderLock true tail = true) :
    closeUnderLock true (cleanupEvents closable now l ++ tail) = true := by
  induction l with
  | nil => simpa [cleanupEvents] using ht
  | cons hd tl ih =>
    obtain ⟨k0, it0⟩ := hd
    cases hexp : it0.expiredAt now
    · simpa [cleanupEvents, hexp] using ih
    · cases hcl : closable it0.value <;>
        simpa [cleanupEvents, hexp, hcl, closeUnderLock] using ih

/-- Claim C4 (corrected, amended): in both `Delete` and `cleanup`, every
`Closable.Close` callback fires while the exclusive table lock is held and
before (never after) the entry's removal from the table. -/
theorem c4_amended_thm (c : Cache K V) (closable : V → Bool) (key : K)
    (now : Int) :
    closeBeforeRemoval ((c.DeleteTrace closable key).2) = true
    ∧ closeUnderLock false ((c.DeleteTrace closable key).2) = true
    ∧ closeBeforeRemoval ((c.CleanupTrace closable now).2) = true
    ∧ closeUnderLock false ((c.CleanupTrace closable now).2) = true := by
  refine ⟨?_, ?_, ?_, ?_⟩
  · cases h : lookupKey c.items key with
    | none => simp [Cache.DeleteTrace, h, closeBeforeRemoval]
    | some it =>
      cases hcl : closable it.value <;>
        simp [Cache.DeleteTrace, h, hcl, closeBeforeRemoval]
  · cases h : lookupKey c.items key with
    | none => simp [Cache.DeleteTrace, h, closeOutsideLock, closeUnderLock]
    | some it =>
      cases hcl : closable it.value <;>
        simp [Cache.DeleteTrace, h, hcl, closeUnderLock]
  · have := closeBeforeRemoval_cleanupEvents closable now c.items
      [CacheEvent.lockRelease] (by simp [closeBeforeRemoval])
    simpa [Cache.CleanupTrace, closeBeforeRemoval] using this
  · have := closeUnderLock_cleanupEvents closable now c.items
      [CacheEvent.lockRelease] (by simp [closeUnderLock])
    simpa [Cache.CleanupTrace, closeUnderLock] using this

/-- Claim C7 (confirmed): one `cleanup` call removes exactly the entries
expired at the single instant taken at the start of the call and leaves
every other entry unchanged, for both the single-partition cache and the
shard. -/
theorem c7_cleanup_removes_exactly_expired (c : Cache K V) (s : Shard K V)
    (now : Int) :
    (c.cleanup now).items = c.items.filter (fun kv => !(kv.2.expiredAt now))
    ∧ (s.cleanup now).items = s.items.filter (fun kv => !(kv.2.expiredAt now)) :=
  ⟨cleanupItems_fst now c.items, cleanupItems_fst now s.items⟩

/-- Claim C8 (confirmed): stopping an already-stopped janitor is a no-op
that does not close the stop channel a second time, and calling the cache's
`Close` twice equals calling it once. -/
theorem c8_stop_idempotent (j : Janitor) (c : Cache K V) :
    (stopJanitor (stopJanitor j).1).1 = (stopJanitor j).1
    ∧ (stopJanitor (stopJanitor j).1).2 = false
    ∧ (c.Close).Close = c.Close := by
  refine ⟨?_, ?_, ?_⟩
  · by_cases h : j.stopClosed <;> simp [stopJanitor, h]
  · by_cases h : j.stopClosed <;> simp [stopJanitor, h]
  · cases hj : c.janitor with
    | none => simp [Cache.Close, hj]
    | some j0 =>
      by_cases h : j0.stopClosed <;> simp [Cache.Close, hj, stopJanitor, h]

/-- Claim C9 (confirmed): `Close` only stops the owned janitor(s).  For the
single-partition cache the item table and counter are untouched and `Get`
behaves identically before and after `Close`; for the sharded table the
shard array is untouched and `Get` returns the same (value, found) answer. -/
theorem c9_close_frame (c : Cache K V) (sc : ShardedCache K V)
    (fmtV : K → List Nat) (now : Int) (k : K) :
    (c.Close).items = c.items
    ∧ (c.Close).count = c.count
    ∧ ((c.Close).Get now k).1 = (c.Get now k).1
    ∧ ((c.Close).Get now k).2.1 = (c.Get now k).2.1
    ∧ (sc.Close).shards = sc.shards
    ∧ (sc.Close.Get fmtV now k).map (fun r => (r.1, r.2.1))
        = (sc.Get fmtV now k).map (fun r => (r.1, r.2.1)) := by
  refine ⟨rfl, rfl, ?_, ?_, rfl, ?_⟩
  · cases h : lookupKey c.items k <;> simp [Cache.Get, Cache.Close, h]
  · cases h : lookupKey c.items k <;> simp [Cache.Get, Cache.Close, h]
  · cases hh : hashKey fmtV k (sc.shards.length : Int) with
    | none => simp [ShardedCache.Get, ShardedCache.Close, hh]
    | some idx =>
      cases hs : sc.shards[idx.toNat]? <;>
        simp [ShardedCache.Get, ShardedCache.Close, hh, hs]

/-- The invariant implicit in claim C10: the keys of the table are distinct
(as for a Go map) and the live counter equals the number of stored entries. -/
def CountInv (c : Cache K V) : Prop :=
  (c.items.map Prod.fst).Nodup ∧ c.count = (c.items.length : Int)

/-- Claim C10 (confirmed): the counter invariant holds for a fresh cache and
is preserved by `Set`, `Delete`, `cleanup` and `Clear`; under it, `Len`
reports exactly the number of stored entries (expired-but-unswept ones
included, since `cleanup`/`Delete` are the only removers). -/
theorem c10_count_invariant (c : Cache K V) (ttl ci now : Int) (k : K) (v : V) :
    CountInv (Cache.New (K := K) (V := V) ttl ci)
    ∧ (CountInv c → CountInv (c.Set now k v))
    ∧ (CountInv c → CountInv (c.Delete k))
    ∧ (CountInv c → CountInv (c.cleanup now))
    ∧ CountInv (c.Clear)
    ∧ (CountInv c → c.Len = (c.items.length : Int)) := by
  refine ⟨⟨List.nodup_nil, by simp [Cache.New]⟩, ?_, ?_, ?_,
    ⟨List.nodup_nil, by simp [Cache.Clear]⟩, fun h => h.2⟩
  · rintro ⟨h1, h2⟩
    cases h : lookupKey c.items k with
    | some it =>
      have hs : (lookupKey c.items k).isSome := by simp [h]
      have hmap := map_fst_insertKey_of_isSome c.items k
        { value := v, expiration := if 0 < c.ttl then now + c.ttl else 0 } hs
      have hlen : (insertKey c.items k
          { value := v, expiration := if 0 < c.ttl then now + c.ttl else 0 }).length
          = c.items.length := by
        have := congrArg List.length hmap
        simpa using this
      refine ⟨?_, ?_⟩
      · simpa [Cache.Set, hmap] using h1
      · simp [Cache.Set, hs, hlen, h2]
    | none =>
      have hk : k ∉ c.items.map Prod.fst := (lookup_eq_none_iff _ _).mp h
      have hmap := map_fst_insertKey_of_none c.items k
        { value := v, expiration := if 0 < c.ttl then now + c.ttl else 0 } h
      have hlen : (insertKey c.items k
          { value := v, expiration := if 0 < c.ttl then now + c.ttl else 0 }).length
          = c.items.length + 1 := by
        have := congrArg List.length hmap
        simpa using this
      refine ⟨?_, ?_⟩
      · rw [show (c.Set now k v).items = insertKey c.items k
          { value := v, expiration := if 0 < c.ttl then now + c.ttl else 0 } from rfl,
          hmap]
        exact h1.append (List.nodup_singleton k)
          (by simpa [List.disjoint_singleton] using hk)
      · simp only [Cache.Set, h, Option.isSome_none, Bool.false_eq_true,
          if_false, hlen]
        push_cast
        omega
  · rintro ⟨h1, h2⟩
    cases h : lookupKey c.items k with
    | none =>
      rw [Cache.delete_absent c k h]
      exact ⟨h1, h2⟩
    | some it =>
      have hs : (lookupKey c.items k).isSome := by simp [h]
      have hlen := length_eraseKey_of_nodup c.items k h1 hs
      refine ⟨?_, ?_⟩
      · simpa [Cache.Delete, h] using h1.sublist ((eraseKey_sublist c.items k).map Prod.fst)
      · simp only [Cache.Delete, h]
        omega
  · rintro ⟨h1, h2⟩
    have hfst := cleanupItems_fst now c.items
    have hlen := cleanupItems_length now c.items
    refine ⟨?_, ?_⟩
    · simpa [Cache.cleanup, hfst] using
        h1.sublist ((List.filter_sublist c.items).map Prod.fst)
    · simp only [Cache.cleanup]
      omega

/-- Witness for C10 at the concrete cache `New 1 1` over `Nat` keys and
values, exercising every conjunct of the invariant theorem. -/
theorem c10_witness :
    CountInv (Cache.New (K := Nat) (V := Nat) 1 1)
    ∧ CountInv ((Cache.New 1 1 : Cache Nat Nat).Set 0 0 5)
    ∧ CountInv ((Cache.New 1 1 : Cache Nat Nat).Delete 0)
    ∧ CountInv ((Cache.New 1 1 : Cache Nat Nat).cleanup 0)
    ∧ CountInv ((Cache.New 1 1 : Cache Nat Nat).Clear)
    ∧ (Cache.New 1 1 : Cache Nat Nat).Len
        = (((Cache.New 1 1 : Cache Nat Nat)).items.length : Int) :=
  ⟨(c10_count_invariant (Cache.New 1 1) 1 1 0 0 5).1,
   (c10_count_invariant (Cache.New 1 1) 1 1 0 0 5).2.1
     (c10_count_invariant (Cache.New 1 1) 1 1 0 0 5).1,
   (c10_count_invariant (Cache.New 1 1) 1 1 0 0 5).2.2.1
     (c10_count_invariant (Cache.New 1 1) 1 1 0 0 5).1,
   (c10_count_invariant (Cache.New 1 1) 1 1 0 0 5).2.2.2.1
     (c10_count_invariant (Cache.New 1 1) 1 1 0 0 5).1,
   (c10_count_invariant (Cache.New 1 1) 1 1 0 0 5).2.2.2.2.1,
   (c10_count_invariant (Cache.New 1 1) 1 1 0 0 5).2.2.2.2.2
     (c10_count_invariant (Cache.New 1 1) 1 1 0 0 5).1⟩

end Cachex
